import Mathlib

/-!
Shallow embedding of the voting engines and parsers of `src/main.py`
(a ranked-choice voting simulator): candidate and ballot parsing,
IRV (instant runoff), Borda count, and Condorcet pairwise comparison.

Python's insertion-ordered `Counter` and `defaultdict(int)` containers are
modelled as association lists: in-place increment (`incr`) updates an
existing key in place and appends a fresh key at the end, matching
insertion order; `get(k, 0)` is `cget`; `sum(t.values())` is `totalOf`;
`min(t.values()) if t else 0` is `lowestOf`.
-/

namespace VoteMaster

/-- Python `Counter`-style increment `t[k] += n`: an existing key is updated
in place, a fresh key is appended at the end (insertion order). -/
def incr {α : Type} [DecidableEq α] : List (α × Nat) → α → Nat → List (α × Nat)
  | [], k, n => [(k, n)]
  | (a, v) :: rest, k, n =>
      if a = k then (a, v + n) :: rest else (a, v) :: incr rest k n

/-- Python `t.get(k, 0)` (also how `Counter.__getitem__` reads a missing key). -/
def cget {α : Type} [DecidableEq α] : List (α × Nat) → α → Nat
  | [], _ => 0
  | (a, v) :: rest, k => if a = k then v else cget rest k

/-- Python `sum(t.values())`. -/
def totalOf {α : Type} (t : List (α × Nat)) : Nat :=
  (t.map Prod.snd).sum

/-- Python `min(l)` over a list of numbers, `0` on the empty list
(callers guard non-emptiness). -/
def listMin : List Nat → Nat
  | [] => 0
  | v :: vs => vs.foldl min v

/-- Python `min(tally.values()) if tally else 0` (`main.py` line 65). -/
def lowestOf {α : Type} (t : List (α × Nat)) : Nat :=
  listMin (t.map Prod.snd)

theorem mem_keys_incr {α : Type} [DecidableEq α] (t : List (α × Nat)) (k k2 : α) (n : Nat)
    (h : k2 ∈ (incr t k n).map Prod.fst) : k2 ∈ t.map Prod.fst ∨ k2 = k := by
  induction t with
  | nil => simpa [incr] using h
  | cons p rest ih =>
      obtain ⟨a, v⟩ := p
      by_cases hak : a = k
      · simp [incr, hak] at h ⊢
        tauto
      · simp only [incr, if_neg hak, List.map_cons, List.mem_cons] at h
        rcases h with h | h
        · exact Or.inl (by simp [h])
        · rcases ih h with h2 | h2
          · exact Or.inl (by simp [h2])
          · exact Or.inr h2

theorem keys_incr_nodup {α : Type} [DecidableEq α] (t : List (α × Nat)) (k : α) (n : Nat)
    (h : (t.map Prod.fst).Nodup) : ((incr t k n).map Prod.fst).Nodup := by
  induction t with
  | nil => simp [incr]
  | cons p rest ih =>
      obtain ⟨a, v⟩ := p
      simp only [List.map_cons, List.nodup_cons] at h
      by_cases hak : a = k
      · simp only [incr, if_pos hak, List.map_cons, List.nodup_cons]
        exact ⟨h.1, h.2⟩
      · simp only [incr, if_neg hak, List.map_cons, List.nodup_cons]
        refine ⟨fun hmem => ?_, ih h.2⟩
        rcases mem_keys_incr rest k a n hmem with h2 | h2
        · exact h.1 h2
        · exact hak h2

theorem totalOf_incr {α : Type} [DecidableEq α] (t : List (α × Nat)) (k : α) (n : Nat) :
    totalOf (incr t k n) = totalOf t + n := by
  induction t with
  | nil => simp [incr, totalOf]
  | cons p rest ih =>
      obtain ⟨a, v⟩ := p
      by_cases hak : a = k
      · simp only [incr, if_pos hak, totalOf, List.map_cons, List.sum_cons]
        omega
      · simp only [incr, if_neg hak, totalOf, List.map_cons, List.sum_cons] at *
        omega

theorem cget_incr {α : Type} [DecidableEq α] (t : List (α × Nat)) (k k2 : α) (n : Nat) :
    cget (incr t k n) k2 = cget t k2 + if k2 = k then n else 0 := by
  induction t with
  | nil =>
      by_cases h : k2 = k
      · simp [incr, cget, h]
      · have h2 : ¬ k = k2 := fun hh => h hh.symm
        simp [incr, cget, h, h2]
  | cons p rest ih =>
      obtain ⟨a, v⟩ := p
      by_cases hak : a = k
      · subst hak
        by_cases hk2 : k2 = a
        · subst hk2
          simp [incr, cget]
        · have h2 : ¬ a = k2 := fun hh => hk2 hh.symm
          simp [incr, cget, h2, hk2]
      · by_cases hk2 : a = k2
        · subst hk2
          simp [incr, cget, hak]
        · simp [incr, cget, hak, hk2, ih]

theorem cget_le_totalOf {α : Type} [DecidableEq α] (t : List (α × Nat)) (k : α) :
    cget t k ≤ totalOf t := by
  induction t with
  | nil => simp [cget, totalOf]
  | cons p rest ih =>
      obtain ⟨a, v⟩ := p
      by_cases hak : a = k
      · simp [cget, totalOf, hak]
      · simp only [cget, if_neg hak, totalOf, List.map_cons, List.sum_cons] at ih ⊢
        omega

theorem cget_eq_of_mem {α : Type} [DecidableEq α] (t : List (α × Nat)) (k : α) (v : Nat)
    (hnd : (t.map Prod.fst).Nodup) (h : (k, v) ∈ t) : cget t k = v := by
  induction t with
  | nil => simp at h
  | cons p rest ih =>
      obtain ⟨a, w⟩ := p
      simp only [List.map_cons, List.nodup_cons] at hnd
      rcases List.mem_cons.mp h with h | h
      · obtain ⟨h1, h2⟩ := Prod.mk.injEq .. ▸ h
        simp [cget, h1.symm, h2]
      · have hak : ¬ a = k := by
          intro hh
          exact hnd.1 (hh ▸ (List.mem_map.mpr ⟨(k, v), h, rfl⟩))
        simp [cget, hak, ih hnd.2 h]

theorem key_pair_mem {α : Type} [DecidableEq α] (t : List (α × Nat)) (k : α)
    (h : k ∈ t.map Prod.fst) : (k, cget t k) ∈ t := by
  induction t with
  | nil => simp at h
  | cons p rest ih =>
      obtain ⟨a, v⟩ := p
      by_cases hak : a = k
      · simp [cget, hak]
      · simp only [List.map_cons, List.mem_cons] at h
        rcases h with h | h
        · exact absurd h.symm hak
        · simp only [cget, if_neg hak]
          exact List.mem_cons_of_mem _ (ih h)

theorem mem_keys_of_cget_ne_zero {α : Type} [DecidableEq α] (t : List (α × Nat)) (k : α)
    (h : cget t k ≠ 0) : k ∈ t.map Prod.fst := by
  induction t with
  | nil => simp [cget] at h
  | cons p rest ih =>
      obtain ⟨a, v⟩ := p
      by_cases hak : a = k
      · simp [hak]
      · simp only [cget, if_neg hak] at h
        simp only [List.map_cons, List.mem_cons]
        exact Or.inr (ih h)

theorem two_cget_le_totalOf {α : Type} [DecidableEq α] (t : List (α × Nat)) (k k2 : α)
    (hnd : (t.map Prod.fst).Nodup) (hk : k ∈ t.map Prod.fst) (hk2 : k2 ∈ t.map Prod.fst)
    (hne : k ≠ k2) : cget t k + cget t k2 ≤ totalOf t := by
  induction t with
  | nil => simp at hk
  | cons p rest ih =>
      obtain ⟨a, v⟩ := p
      simp only [List.map_cons, List.nodup_cons] at hnd
      by_cases hak : a = k
      · have hk2r : k2 ∈ rest.map Prod.fst := by
          rcases List.mem_cons.mp hk2 with h | h
          · exact absurd (hak.symm.trans h.symm) hne
          · exact h
        have h2 : ¬ a = k2 := fun hh => hne (hak.symm.trans hh)
        simp only [cget, if_pos hak, if_neg h2, totalOf, List.map_cons, List.sum_cons]
        have := cget_le_totalOf rest k2
        simp only [totalOf] at this
        omega
      · by_cases hak2 : a = k2
        · have hkr : k ∈ rest.map Prod.fst := by
            rcases List.mem_cons.mp hk with h | h
            · exact absurd h.symm hak
            · exact h
          simp only [cget, if_neg hak, if_pos hak2, totalOf, List.map_cons, List.sum_cons]
          have := cget_le_totalOf rest k
          simp only [totalOf] at this
          omega
        · have hkr : k ∈ rest.map Prod.fst := by
            rcases List.mem_cons.mp hk with h | h
            · exact absurd h.symm hak
            · exact h
          have hk2r : k2 ∈ rest.map Prod.fst := by
            rcases List.mem_cons.mp hk2 with h | h
            · exact absurd h.symm hak2
            · exact h
          simp only [cget, if_neg hak, if_neg hak2, totalOf, List.map_cons, List.sum_cons]
          have := ih hnd.2 hkr hk2r
          simp only [totalOf] at this
          omega

theorem foldl_min_mem (vs : List Nat) : ∀ v : Nat, vs.foldl min v = v ∨ vs.foldl min v ∈ vs := by
  induction vs with
  | nil => intro v; exact Or.inl rfl
  | cons u vs ih =>
      intro v
      simp only [List.foldl_cons]
      rcases ih (min v u) with h | h
      · rcases le_total v u with hvu | hvu
        · exact Or.inl (h.trans (min_eq_left hvu))
        · refine Or.inr ?_
          rw [h, min_eq_right hvu]
          exact List.mem_cons_self u vs
      · exact Or.inr (List.mem_cons_of_mem _ h)

theorem listMin_mem (l : List Nat) (h : l ≠ []) : listMin l ∈ l := by
  match l with
  | [] => exact absurd rfl h
  | v :: vs =>
      simp only [listMin]
      rcases foldl_min_mem vs v with h2 | h2
      · simp [h2]
      · exact List.mem_cons_of_mem _ h2

theorem filter_length_lt {α : Type} (l : List α) (p : α → Bool) (x : α)
    (hx : x ∈ l) (hpx : p x = false) : (l.filter p).length < l.length := by
  induction l with
  | nil => simp at hx
  | cons a rest ih =>
      rcases List.mem_cons.mp hx with h | h
      · have hpa : p a = false := h ▸ hpx
        simp only [List.filter_cons, hpa]
        simp only [Bool.false_eq_true, if_false, List.length_cons]
        exact Nat.lt_succ_of_le (List.length_filter_le p rest)
      · have h1 := ih h
        have h2 := List.length_filter_le p rest
        cases hpa : p a <;> simp [List.filter_cons, hpa] <;> omega

/-! ## The IRV engine (`irv_winner`, `main.py` lines 47–69) -/

abbrev Ballot := Nat × List String

abbrev Tally := List (String × Nat)

abbrev Round := Tally × Nat × List String

/-- The inner `for choice in ranking: if choice in remaining: ...; break`
loop: first entry of `ranking` still in `remaining`. -/
def firstChoice (ranking remaining : List String) : Option String :=
  ranking.find? (fun c => decide (c ∈ remaining))

/-- Processing one ballot of the per-round counting loop. -/
def tallyAdd (remaining : List String) (t : Tally) (b : Ballot) : Tally :=
  match firstChoice b.2 remaining with
  | some choice => incr t choice b.1
  | none => t

/-- One round of first-choice counting (`main.py` lines 52–57). -/
def countRound (ballots : List Ballot) (remaining : List String) : Tally :=
  ballots.foldl (tallyAdd remaining) []

theorem keys_foldl_tallyAdd (remaining : List String) (bs : List Ballot) :
    ∀ (t : Tally), ∀ k ∈ ((bs.foldl (tallyAdd remaining) t).map Prod.fst),
      k ∈ t.map Prod.fst ∨ k ∈ remaining := by
  induction bs with
  | nil => intro t k hk; exact Or.inl hk
  | cons b bs ih =>
      intro t k hk
      simp only [List.foldl_cons] at hk
      rcases ih (tallyAdd remaining t b) k hk with h | h
      · unfold tallyAdd at h
        cases hfc : firstChoice b.2 remaining with
        | none => rw [hfc] at h; exact Or.inl h
        | some c =>
            rw [hfc] at h
            rcases mem_keys_incr t c k b.1 h with h2 | h2
            · exact Or.inl h2
            · refine Or.inr ?_
              have := List.find?_some hfc
              exact h2 ▸ of_decide_eq_true this
      · exact Or.inr h

theorem keys_countRound_subset (ballots : List Ballot) (remaining : List String) :
    ∀ k ∈ ((countRound ballots remaining).map Prod.fst), k ∈ remaining := by
  intro k hk
  rcases keys_foldl_tallyAdd remaining ballots [] k hk with h | h
  · simp at h
  · exact h

theorem keys_foldl_tallyAdd_nodup (remaining : List String) (bs : List Ballot) :
    ∀ (t : Tally), (t.map Prod.fst).Nodup →
      (((bs.foldl (tallyAdd remaining) t)).map Prod.fst).Nodup := by
  induction bs with
  | nil => intro t ht; exact ht
  | cons b bs ih =>
      intro t ht
      simp only [List.foldl_cons]
      refine ih (tallyAdd remaining t b) ?_
      unfold tallyAdd
      cases hfc : firstChoice b.2 remaining with
      | none => exact ht
      | some c => exact keys_incr_nodup t c b.1 ht

theorem keys_countRound_nodup (ballots : List Ballot) (remaining : List String) :
    (((countRound ballots remaining)).map Prod.fst).Nodup :=
  keys_foldl_tallyAdd_nodup remaining ballots [] (by simp)

theorem totalOf_ne_zero_nonempty {α : Type} (t : List (α × Nat)) (h : totalOf t ≠ 0) :
    t ≠ [] := by
  intro hnil
  exact h (by simp [hnil, totalOf])

theorem exists_lowest_key {α : Type} [DecidableEq α] (t : List (α × Nat)) (h : t ≠ []) :
    ∃ p ∈ t, p.2 = lowestOf t := by
  have hv : (t.map Prod.snd) ≠ [] := by simpa using h
  have hm : lowestOf t ∈ t.map Prod.snd := listMin_mem _ hv
  rcases List.mem_map.mp hm with ⟨p, hp, hpe⟩
  exact ⟨p, hp, hpe⟩

/-- Each continuing IRV iteration strictly shrinks the remaining set: when the
round total is non-zero, some remaining candidate is at the recorded minimum
and is filtered out. -/
theorem countRound_shrink (ballots : List Ballot) (remaining : List String)
    (h : totalOf (countRound ballots remaining) ≠ 0) :
    (remaining.filter
        (fun c => cget (countRound ballots remaining) c !=
          lowestOf (countRound ballots remaining))).length < remaining.length := by
  set t := countRound ballots remaining with ht
  have hne : t ≠ [] := totalOf_ne_zero_nonempty t h
  rcases exists_lowest_key t hne with ⟨p, hp, hpe⟩
  have hkey : p.1 ∈ t.map Prod.fst := List.mem_map.mpr ⟨p, hp, rfl⟩
  have hmem : p.1 ∈ remaining := keys_countRound_subset ballots remaining p.1 (ht ▸ hkey)
  have hcg : cget t p.1 = p.2 := by
    have := cget_eq_of_mem t p.1 p.2 (ht ▸ keys_countRound_nodup ballots remaining) ?_
    · exact this
    · exact (Prod.mk.eta (p := p)) ▸ hp
  refine filter_length_lt remaining _ p.1 hmem ?_
  simp [hcg, hpe]

/-- Python `tally.items()` iteration of the majority check (`main.py`
lines 62–64): the first candidate in insertion order whose votes strictly
exceed `total / 2` (as a real comparison, `votes > total / 2` iff
`2 * votes > total`). -/
def findMajority (tally : Tally) (total : Nat) : Option String :=
  (tally.find? (fun p => decide (total < 2 * p.2))).map Prod.fst

/-- The `while len(remaining) > 1` loop of `irv_winner`, together with the
shared final `return (remaining[0] if remaining else "No winner"), rounds`. -/
def irvLoop (ballots : List Ballot) (remaining : List String) (rounds : List Round) :
    String × List Round :=
  if h1 : remaining.length ≤ 1 then
    (remaining.headD "No winner", rounds)
  else
    let tally := countRound ballots remaining
    let total := totalOf tally
    let rounds2 := rounds ++ [(tally, total, remaining)]
    if h0 : total = 0 then
      (remaining.headD "No winner", rounds2)
    else
      match findMajority tally total with
      | some c => (c, rounds2)
      | none =>
          irvLoop ballots
            (remaining.filter (fun c => cget tally c != lowestOf tally)) rounds2
termination_by remaining.length
decreasing_by
  exact countRound_shrink ballots remaining h0

/-- The function `irv_winner` (`main.py` lines 47–69). -/
def irv_winner (candidates : List String) (ballots : List Ballot) :
    String × List Round :=
  irvLoop ballots candidates []

theorem irvLoop_exit (ballots : List Ballot) (remaining : List String) (rounds : List Round)
    (h : remaining.length ≤ 1) :
    irvLoop ballots remaining rounds = (remaining.headD "No winner", rounds) := by
  unfold irvLoop
  simp [h]

theorem irvLoop_zero (ballots : List Ballot) (remaining : List String) (rounds : List Round)
    (h : ¬ remaining.length ≤ 1) (h0 : totalOf (countRound ballots remaining) = 0) :
    irvLoop ballots remaining rounds =
      (remaining.headD "No winner",
        rounds ++ [(countRound ballots remaining, 0, remaining)]) := by
  conv_lhs => rw [irvLoop]
  simp [h, h0]

theorem irvLoop_major (ballots : List Ballot) (remaining : List String) (rounds : List Round)
    (c : String) (h : ¬ remaining.length ≤ 1)
    (h0 : totalOf (countRound ballots remaining) ≠ 0)
    (hm : findMajority (countRound ballots remaining)
        (totalOf (countRound ballots remaining)) = some c) :
    irvLoop ballots remaining rounds =
      (c, rounds ++
        [(countRound ballots remaining, totalOf (countRound ballots remaining),
          remaining)]) := by
  conv_lhs => rw [irvLoop]
  simp [h, h0, hm]

theorem irvLoop_elim (ballots : List Ballot) (remaining : List String) (rounds : List Round)
    (h : ¬ remaining.length ≤ 1)
    (h0 : totalOf (countRound ballots remaining) ≠ 0)
    (hm : findMajority (countRound ballots remaining)
        (totalOf (countRound ballots remaining)) = none) :
    irvLoop ballots remaining rounds =
      irvLoop ballots
        (remaining.filter (fun c => cget (countRound ballots remaining) c !=
          lowestOf (countRound ballots remaining)))
        (rounds ++
          [(countRound ballots remaining, totalOf (countRound ballots remaining),
            remaining)]) := by
  conv_lhs => rw [irvLoop]
  simp [h, h0, hm]

theorem irvLoop_trail_mono (ballots : List Ballot) :
    ∀ (n : Nat) (remaining : List String), remaining.length = n →
      ∀ rounds : List Round, ∃ t, (irvLoop ballots remaining rounds).2 = rounds ++ t := by
  intro n
  induction n using Nat.strong_induction_on with
  | _ n ih =>
      intro remaining hlen rounds
      by_cases h1 : remaining.length ≤ 1
      · exact ⟨[], by rw [irvLoop_exit ballots remaining rounds h1]; simp⟩
      · by_cases h0 : totalOf (countRound ballots remaining) = 0
        · exact ⟨_, by rw [irvLoop_zero ballots remaining rounds h1 h0]⟩
        · cases hm : findMajority (countRound ballots remaining)
              (totalOf (countRound ballots remaining)) with
          | some c =>
              exact ⟨_, by rw [irvLoop_major ballots remaining rounds c h1 h0 hm]⟩
          | none =>
              rw [irvLoop_elim ballots remaining rounds h1 h0 hm]
              obtain ⟨t, ht⟩ :=
                ih _ (hlen ▸ countRound_shrink ballots remaining h0) _ rfl
                  (rounds ++
                    [(countRound ballots remaining,
                      totalOf (countRound ballots remaining), remaining)])
              refine ⟨(countRound ballots remaining,
                totalOf (countRound ballots remaining), remaining) :: t, ?_⟩
              rw [ht]
              simp

theorem irvLoop_trail_len (ballots : List Ballot) :
    ∀ (n : Nat) (remaining : List String), remaining.length = n →
      ∀ rounds : List Round,
        (irvLoop ballots remaining rounds).2.length ≤
          rounds.length + (remaining.length - 1) := by
  intro n
  induction n using Nat.strong_induction_on with
  | _ n ih =>
      intro remaining hlen rounds
      by_cases h1 : remaining.length ≤ 1
      · rw [irvLoop_exit ballots remaining rounds h1]
        exact Nat.le_add_right _ _
      · by_cases h0 : totalOf (countRound ballots remaining) = 0
        · rw [irvLoop_zero ballots remaining rounds h1 h0]
          simp
          omega
        · cases hm : findMajority (countRound ballots remaining)
              (totalOf (countRound ballots remaining)) with
          | some c =>
              rw [irvLoop_major ballots remaining rounds c h1 h0 hm]
              simp
              omega
          | none =>
              rw [irvLoop_elim ballots remaining rounds h1 h0 hm]
              have hsh := countRound_shrink ballots remaining h0
              have hrec := ih _ (hlen ▸ hsh) _ rfl
                (rounds ++
                  [(countRound ballots remaining,
                    totalOf (countRound ballots remaining), remaining)])
              simp at hrec
              omega

/-- The first recorded round of `irv_winner` (when at least two candidates
remain at the start) is the first-choice count over the full candidate
set. -/
theorem irv_trail_head (candidates : List String) (ballots : List Ballot)
    (h : 1 < candidates.length) :
    (irv_winner candidates ballots).2.head? =
      some (countRound ballots candidates, totalOf (countRound ballots candidates),
        candidates) := by
  have h1 : ¬ candidates.length ≤ 1 := by omega
  unfold irv_winner
  by_cases h0 : totalOf (countRound ballots candidates) = 0
  · rw [irvLoop_zero ballots candidates [] h1 h0, h0]
    simp
  · cases hm : findMajority (countRound ballots candidates)
        (totalOf (countRound ballots candidates)) with
    | some c =>
        rw [irvLoop_major ballots candidates [] c h1 h0 hm]
        simp
    | none =>
        rw [irvLoop_elim ballots candidates [] h1 h0 hm]
        obtain ⟨t, ht⟩ := irvLoop_trail_mono ballots _ _ rfl
          ([] ++
            [(countRound ballots candidates, totalOf (countRound ballots candidates),
              candidates)])
        rw [ht]
        simp

theorem findMajority_eq_some (tally : Tally) (total : Nat) (c : String)
    (hnd : (tally.map Prod.fst).Nodup)
    (hsum : totalOf tally = total)
    (hc : total < 2 * cget tally c) :
    findMajority tally total = some c := by
  have hc0 : cget tally c ≠ 0 := by
    intro hz
    rw [hz] at hc
    omega
  have hkey := mem_keys_of_cget_ne_zero tally c hc0
  have hpair := key_pair_mem tally c hkey
  cases hf : tally.find? (fun p => decide (total < 2 * p.2)) with
  | none =>
      exfalso
      have := List.find?_eq_none.mp hf (c, cget tally c) hpair
      simp at this
      omega
  | some p =>
      have hppred := List.find?_some hf
      have hpmem := List.mem_of_find?_eq_some hf
      simp only [decide_eq_true_eq] at hppred
      have hcg : cget tally p.1 = p.2 :=
        cget_eq_of_mem tally p.1 p.2 hnd ((Prod.mk.eta (p := p)) ▸ hpmem)
      by_cases hpc : p.1 = c
      · simp [findMajority, hf, hpc]
      · exfalso
        have hkey2 : p.1 ∈ tally.map Prod.fst := List.mem_map.mpr ⟨p, hpmem, rfl⟩
        have hle := two_cget_le_totalOf tally c p.1 hnd hkey hkey2
          (fun hh => hpc hh.symm)
        rw [hsum, hcg] at hle
        omega

/-! ## Claims about the IRV engine -/

/-- Claim C1, counterexample: with candidates `A,B,C,D` and ballots
`1: A` and `1: B`, round 2 has counted total 0, yet the engine returns
the first remaining candidate `"C"` as winner, not the `"No winner"`
sentinel. -/
theorem irv_zero_total_claim_cex :
    irv_winner ["A","B","C","D"] [(1,["A"]),(1,["B"])] =
      ("C", [([("A",1),("B",1)], 2, ["A","B","C","D"]), ([], 0, ["C","D"])]) ∧
    "C" ≠ "No winner" := by
  constructor
  · simp [irv_winner, irvLoop, countRound, tallyAdd, firstChoice, incr, totalOf,
      findMajority, cget, lowestOf, listMin]
  · decide

/-- Claim C1, amended: when a round's counted total is 0 (and more than one
candidate remains), the engine stops immediately, appends that round to the
trail, and returns the *first remaining candidate* as winner — the remaining
set is non-empty at that point, so the no-winner outcome is not produced. -/
theorem irv_zero_total_returns_first_remaining (ballots : List Ballot)
    (remaining : List String) (rounds : List Round)
    (h1 : 1 < remaining.length)
    (h0 : totalOf (countRound ballots remaining) = 0) :
    ∃ c, remaining.head? = some c ∧
      irvLoop ballots remaining rounds =
        (c, rounds ++ [(countRound ballots remaining, 0, remaining)]) := by
  match remaining, h1 with
  | c :: c2 :: rest, _ =>
      refine ⟨c, rfl, ?_⟩
      rw [irvLoop_zero ballots (c :: c2 :: rest) rounds (by simp) h0]
      rfl

/-- Witness for the amended claim C1 at a concrete zero-total state. -/
theorem irv_zero_total_returns_first_remaining_witness :
    1 < (["C","D"] : List String).length ∧
    totalOf (countRound [(1,["A"]),(1,["B"])] ["C","D"]) = 0 ∧
    ∃ c, (["C","D"] : List String).head? = some c ∧
      irvLoop [(1,["A"]),(1,["B"])] ["C","D"] [] =
        (c, [] ++ [(countRound [(1,["A"]),(1,["B"])] ["C","D"], 0, ["C","D"])]) :=
  ⟨by decide, by decide,
    irv_zero_total_returns_first_remaining [(1,["A"]),(1,["B"])] ["C","D"] []
      (by decide) (by decide)⟩

/-- Modelled from the spec's words for claim C2 only, for comparison with the
code: "the minimum tally value among remaining candidates (candidates with
zero recorded tally count as 0)". -/
def minSpecTally (remaining : List String) (tally : Tally) : Nat :=
  listMin (remaining.map (fun c => cget tally c))

/-- Claim C2, counterexample: candidates `A,B,C`, ballots `1: A` and `1: B`.
The code's round-1 minimum (over *recorded* tallies) is 1, while the claim's
minimum (over all remaining candidates, missing tallies as 0) is 0; the code
eliminates `A` and `B` — not the zero-tally candidate `C`, which survives and
wins. -/
theorem irv_elimination_claim_cex :
    lowestOf (countRound [(1,["A"]),(1,["B"])] ["A","B","C"]) = 1 ∧
    minSpecTally ["A","B","C"] (countRound [(1,["A"]),(1,["B"])] ["A","B","C"]) = 0 ∧
    cget (countRound [(1,["A"]),(1,["B"])] ["A","B","C"]) "C" = 0 ∧
    irv_winner ["A","B","C"] [(1,["A"]),(1,["B"])] =
      ("C", [([("A",1),("B",1)], 2, ["A","B","C"])]) := by
  refine ⟨by decide, by decide, by decide, ?_⟩
  simp [irv_winner, irvLoop, countRound, tallyAdd, firstChoice, incr, totalOf,
    findMajority, cget, lowestOf, listMin]

/-- Claim C2, amended: in an elimination step the minimum is taken over the
*recorded* tally values only (a remaining candidate with no recorded tally is
not counted as 0 for the minimum); every remaining candidate whose tally
(read with default 0) equals that recorded minimum is removed simultaneously,
and removal preserves the original order of the remaining set (the survivors
are a filter, hence a sublist). -/
theorem irv_elimination_step (ballots : List Ballot) (remaining : List String)
    (rounds : List Round)
    (h1 : 1 < remaining.length)
    (h0 : totalOf (countRound ballots remaining) ≠ 0)
    (hm : findMajority (countRound ballots remaining)
        (totalOf (countRound ballots remaining)) = none) :
    irvLoop ballots remaining rounds =
      irvLoop ballots
        (remaining.filter (fun c => cget (countRound ballots remaining) c !=
          lowestOf (countRound ballots remaining)))
        (rounds ++
          [(countRound ballots remaining, totalOf (countRound ballots remaining),
            remaining)]) ∧
    lowestOf (countRound ballots remaining) =
      listMin ((countRound ballots remaining).map Prod.snd) ∧
    (remaining.filter (fun c => cget (countRound ballots remaining) c !=
        lowestOf (countRound ballots remaining))).Sublist remaining := by
  refine ⟨irvLoop_elim ballots remaining rounds (by omega) h0 hm, rfl,
    List.filter_sublist remaining⟩

/-- Witness for the amended claim C2 at a concrete elimination state. -/
theorem irv_elimination_step_witness :
    1 < (["A","B","C"] : List String).length ∧
    totalOf (countRound [(1,["A"]),(1,["B"])] ["A","B","C"]) ≠ 0 ∧
    findMajority (countRound [(1,["A"]),(1,["B"])] ["A","B","C"])
      (totalOf (countRound [(1,["A"]),(1,["B"])] ["A","B","C"])) = none ∧
    (irvLoop [(1,["A"]),(1,["B"])] ["A","B","C"] [] =
      irvLoop [(1,["A"]),(1,["B"])]
        ((["A","B","C"] : List String).filter
          (fun c => cget (countRound [(1,["A"]),(1,["B"])] ["A","B","C"]) c !=
            lowestOf (countRound [(1,["A"]),(1,["B"])] ["A","B","C"])))
        ([] ++
          [(countRound [(1,["A"]),(1,["B"])] ["A","B","C"],
            totalOf (countRound [(1,["A"]),(1,["B"])] ["A","B","C"]),
            ["A","B","C"])]) ∧
      lowestOf (countRound [(1,["A"]),(1,["B"])] ["A","B","C"]) =
        listMin ((countRound [(1,["A"]),(1,["B"])] ["A","B","C"]).map Prod.snd) ∧
      ((["A","B","C"] : List String).filter
        (fun c => cget (countRound [(1,["A"]),(1,["B"])] ["A","B","C"]) c !=
          lowestOf (countRound [(1,["A"]),(1,["B"])] ["A","B","C"]))).Sublist
        ["A","B","C"]) :=
  ⟨by decide, by decide, by decide,
    irv_elimination_step [(1,["A"]),(1,["B"])] ["A","B","C"] []
      (by decide) (by decide) (by decide)⟩

/-- Claim C4: in any IRV round state with more than one remaining candidate,
if candidate `c`'s tally strictly exceeds half the round total (real-valued
comparison: `2 * votes > total`), the engine declares `c` the winner and
stops, appending only that round to the trail — no further elimination.
With `remaining = candidates` and `rounds = []` this is exactly: a round-1
strict-majority candidate wins `irv_winner` with a one-round trail. -/
theorem irv_majority_wins (ballots : List Ballot) (remaining : List String)
    (rounds : List Round) (c : String)
    (h1 : 1 < remaining.length)
    (hc : totalOf (countRound ballots remaining) <
      2 * cget (countRound ballots remaining) c) :
    irvLoop ballots remaining rounds =
      (c, rounds ++
        [(countRound ballots remaining, totalOf (countRound ballots remaining),
          remaining)]) := by
  have h0 : totalOf (countRound ballots remaining) ≠ 0 := by
    have := cget_le_totalOf (countRound ballots remaining) c
    omega
  have hm := findMajority_eq_some (countRound ballots remaining)
    (totalOf (countRound ballots remaining)) c
    (keys_countRound_nodup ballots remaining) rfl hc
  exact irvLoop_major ballots remaining rounds c (by omega) h0 hm

/-- Witness for claim C4: with ballots `3: A`, `1: B`, candidate `A` has
3 of 4 votes in round 1 (strictly more than half) and wins at once. -/
theorem irv_majority_wins_witness :
    1 < (["A","B"] : List String).length ∧
    totalOf (countRound [(3,["A"]),(1,["B"])] ["A","B"]) <
      2 * cget (countRound [(3,["A"]),(1,["B"])] ["A","B"]) "A" ∧
    irvLoop [(3,["A"]),(1,["B"])] ["A","B"] [] =
      ("A", [] ++
        [(countRound [(3,["A"]),(1,["B"])] ["A","B"],
          totalOf (countRound [(3,["A"]),(1,["B"])] ["A","B"]), ["A","B"])]) :=
  ⟨by decide, by decide,
    irv_majority_wins [(3,["A"]),(1,["B"])] ["A","B"] [] "A" (by decide) (by decide)⟩

/-- Claim C6: the IRV engine terminates — every continuing iteration
strictly shrinks the remaining set (second conjunct; termination of the
model itself is by this measure) — and the round trail never exceeds
`candidateCount - 1` entries. -/
theorem irv_terminates_trail_bound (candidates : List String) (ballots : List Ballot)
    (h : 1 ≤ candidates.length) :
    (irv_winner candidates ballots).2.length ≤ candidates.length - 1 ∧
    ∀ remaining : List String, totalOf (countRound ballots remaining) ≠ 0 →
      (remaining.filter (fun c => cget (countRound ballots remaining) c !=
        lowestOf (countRound ballots remaining))).length < remaining.length := by
  constructor
  · have := irvLoop_trail_len ballots candidates.length candidates rfl []
    simpa [irv_winner] using this
  · intro remaining h0
    exact countRound_shrink ballots remaining h0

/-- Witness for claim C6 at a concrete two-candidate election. -/
theorem irv_terminates_trail_bound_witness :
    1 ≤ (["A","B"] : List String).length ∧
    ((irv_winner ["A","B"] [(3,["A"]),(1,["B"])]).2.length ≤
        (["A","B"] : List String).length - 1 ∧
      ∀ remaining : List String,
        totalOf (countRound [(3,["A"]),(1,["B"])] remaining) ≠ 0 →
        (remaining.filter
          (fun c => cget (countRound [(3,["A"]),(1,["B"])] remaining) c !=
            lowestOf (countRound [(3,["A"]),(1,["B"])] remaining))).length <
          remaining.length) :=
  ⟨by decide, irv_terminates_trail_bound ["A","B"] [(3,["A"]),(1,["B"])] (by decide)⟩

theorem totalOf_foldl_tallyAdd (remaining : List String) (bs : List Ballot) :
    ∀ t : Tally,
      totalOf (bs.foldl (tallyAdd remaining) t) =
        totalOf t +
          (bs.map (fun b => if (firstChoice b.2 remaining).isSome then b.1 else 0)).sum := by
  induction bs with
  | nil => intro t; simp
  | cons b bs ih =>
      intro t
      simp only [List.foldl_cons, List.map_cons, List.sum_cons, ih (tallyAdd remaining t b)]
      unfold tallyAdd
      cases hfc : firstChoice b.2 remaining with
      | none => simp [hfc]
      | some c =>
          simp [hfc, totalOf_incr]
          omega

/-- Claim C7: for a valid input with at least two candidates, the round-1
counted total (as recorded in the first trail entry) is at most the sum of
all ballot weights, and equals it when every ballot's ranking is
non-empty. -/
theorem irv_round1_total (candidates : List String) (ballots : List Ballot)
    (h2 : 2 ≤ candidates.length)
    (hv : ∀ b ∈ ballots, ∀ x ∈ b.2, x ∈ candidates) :
    (irv_winner candidates ballots).2.head? =
      some (countRound ballots candidates, totalOf (countRound ballots candidates),
        candidates) ∧
    totalOf (countRound ballots candidates) ≤ (ballots.map Prod.fst).sum ∧
    ((∀ b ∈ ballots, b.2 ≠ []) →
      totalOf (countRound ballots candidates) = (ballots.map Prod.fst).sum) := by
  refine ⟨irv_trail_head candidates ballots (by omega), ?_, ?_⟩
  · rw [countRound, totalOf_foldl_tallyAdd]
    simp only [totalOf, List.map_nil, List.sum_nil, Nat.zero_add]
    refine List.sum_le_sum ?_
    intro b hb
    cases hfc : firstChoice b.2 candidates <;> simp
  · intro hne
    rw [countRound, totalOf_foldl_tallyAdd]
    simp only [totalOf, List.map_nil, List.sum_nil, Nat.zero_add]
    congr 1
    refine List.map_congr_left ?_
    intro b hb
    have hb2 : b.2 ≠ [] := hne b hb
    match hr : b.2, hb2 with
    | x :: rest, _ =>
        have hx : x ∈ candidates := hv b hb x (by rw [hr]; exact List.mem_cons_self x rest)
        simp [firstChoice, List.find?_cons, hx]

/-- Witness for claim C7 at a concrete election (one ballot empty-ranking
free, totals matching). -/
theorem irv_round1_total_witness :
    2 ≤ (["A","B"] : List String).length ∧
    (∀ b ∈ [((3 : Nat), ["A"]), (1, ["B"])], ∀ x ∈ b.2, x ∈ (["A","B"] : List String)) ∧
    ((irv_winner ["A","B"] [(3,["A"]),(1,["B"])]).2.head? =
        some (countRound [(3,["A"]),(1,["B"])] ["A","B"],
          totalOf (countRound [(3,["A"]),(1,["B"])] ["A","B"]), ["A","B"]) ∧
      totalOf (countRound [(3,["A"]),(1,["B"])] ["A","B"]) ≤
        ([((3 : Nat), ["A"]), (1, ["B"])].map Prod.fst).sum ∧
      ((∀ b ∈ [((3 : Nat), ["A"]), (1, ["B"])], b.2 ≠ []) →
        totalOf (countRound [(3,["A"]),(1,["B"])] ["A","B"]) =
          ([((3 : Nat), ["A"]), (1, ["B"])].map Prod.fst).sum)) :=
  ⟨by decide, by decide,
    irv_round1_total ["A","B"] [(3,["A"]),(1,["B"])] (by decide) (by decide)⟩

/-- Claim C10: a concrete valid input (two candidates, positive counted
total) where all remaining candidates tie at the minimum, are all eliminated
in one round, and the engine returns the `"No winner"` sentinel even though
ballots were counted that round. -/
theorem irv_all_eliminated_no_winner :
    irv_winner ["A","B"] [(1,["A"]),(1,["B"])] =
      ("No winner", [([("A",1),("B",1)], 2, ["A","B"])]) := by
  simp [irv_winner, irvLoop, countRound, tallyAdd, firstChoice, incr, totalOf,
    findMajority, cget, lowestOf, listMin]

/-! ## The Borda engine (`borda_winner`, `main.py` lines 72–78) -/

/-- The function `borda_winner`: scores initialised to 0 for every candidate in order,
then each ballot adds `count * (max_points - idx)` at each 0-based ranking
position `idx`.  For validated ballots `len(ranking) ≤ len(candidates)`, so
the ℕ subtraction `maxPoints - idx` never truncates differently from the
Python `int` subtraction. -/
def borda_winner (candidates : List String) (ballots : List Ballot) : Tally :=
  ballots.foldl
    (fun scores b =>
      (b.2.enum).foldl
        (fun sc p => incr sc p.2 (b.1 * ((candidates.length - 1) - p.1))) scores)
    (candidates.map (fun c => (c, 0)))

/-! ## The Condorcet engine (`condorcet_winner`, `main.py` lines 81–99) -/

/-- The ordered pairs `(ranking[i], ranking[j])` for `i < j`, in the
iteration order of the two nested `for` loops over one ranking. -/
def ballotPairs : List String → List (String × String)
  | [] => []
  | c :: rest => rest.map (fun d => (c, d)) ++ ballotPairs rest

/-- The pairwise-preference matrix: `pairwise[winner][loser] += count` for
every ordered in-ranking pair of every ballot (`main.py` lines 82–86).
Python's `defaultdict` also inserts zero entries when merely *read* later;
reads are modelled by `pget` with default 0, which is unaffected. -/
def pairwiseOf (ballots : List Ballot) : List ((String × String) × Nat) :=
  ballots.foldl (fun m b => (ballotPairs b.2).foldl (fun m2 p => incr m2 p b.1) m) []

/-- Python `pairwise[a][b]` read with `defaultdict` default 0. -/
def pget (pw : List ((String × String) × Nat)) (a b : String) : Nat :=
  cget pw (a, b)

/-- The victory counter (`main.py` lines 87–93): for every ordered pair of
distinct candidates `a, b`, candidate `a` gets one victory when
`pairwise[a][b] > pairwise[b][a]`. -/
def victoriesOf (candidates : List String) (pw : List ((String × String) × Nat)) :
    List (String × Nat) :=
  candidates.foldl
    (fun v a =>
      candidates.foldl
        (fun v2 b =>
          if a = b then v2
          else if pget pw b a < pget pw a b then incr v2 a 1 else v2)
        v)
    []

/-- The function `condorcet_winner` (`main.py` lines 81–99): the winner is the first
candidate in candidate-set order whose victory count is
`len(candidates) - 1`, `none` otherwise. -/
def condorcet_winner (candidates : List String) (ballots : List Ballot) :
    Option String × List ((String × String) × Nat) × List (String × Nat) :=
  let pw := pairwiseOf ballots
  let victories := victoriesOf candidates pw
  (candidates.find? (fun c => cget victories c == candidates.length - 1), pw, victories)

/-! ## Parsing (`parse_candidates` and `parse_ballots`, `main.py` lines 6–44)

Python strings are modelled as `List Char`.  `str.split(sep)` (single-char
separator) is `splitChar`, `str.strip()` is `strip`, `str.splitlines()` is
`splitlines` (newline-only inputs), `sep.join` is `joinSep`. -/

abbrev Str := List Char

/-- Python `s.strip()`: drop leading and trailing whitespace. -/
def strip (s : Str) : Str :=
  ((s.dropWhile Char.isWhitespace).reverse.dropWhile Char.isWhitespace).reverse

/-- Python `s.split(sep)` for a one-character separator: split at every
occurrence, keeping empty pieces (`"".split(sep) == [""]`). -/
def splitChar (sep : Char) : Str → List Str
  | [] => [[]]
  | c :: rest =>
      let ps := splitChar sep rest
      if c = sep then [] :: ps else (c :: ps.headI) :: ps.tail

/-- Python `s.splitlines()` for newline-separated text: like splitting on
`'\n'` but without a trailing empty piece (`"".splitlines() == []`,
`"a\n".splitlines() == ["a"]`). -/
def splitlines (s : Str) : List Str :=
  if s = [] then []
  else if s.getLast? = some '\n' then (splitChar '\n' s).dropLast
  else splitChar '\n' s

/-- Python `sep.join(pieces)` for a one-character separator. -/
def joinSep (sep : Char) : List Str → Str
  | [] => []
  | [t] => t
  | t :: rest => t ++ sep :: joinSep sep rest

/-- The two `ValueError`s of `parse_candidates`. -/
inductive CandErr : Type
  | dupCandidate : CandErr
  | emptySet : CandErr
deriving DecidableEq

/-- The function `parse_candidates` (`main.py` lines 6–12): split on commas, trim, drop
empty tokens; duplicate names error before the emptiness error.  Python's
`len(set(candidates)) != len(candidates)` is the `dedup` length test. -/
def parse_candidates (raw : Str) : Except CandErr (List Str) :=
  let candidates := ((splitChar ',' raw).map strip).filter (fun t => !t.isEmpty)
  if candidates.dedup.length ≠ candidates.length then .error .dupCandidate
  else if candidates.isEmpty then .error .emptySet
  else .ok candidates

/-- Digit-string value, `none` unless the string is non-empty and all
digits. -/
def digitsVal (s : Str) : Option Nat :=
  if s.isEmpty then none
  else if s.all Char.isDigit then
    some (s.foldl (fun n c => n * 10 + (c.toNat - 48)) 0)
  else none

/-- Python `int(s)` on an already-stripped string: optional sign then
digits. -/
def parseInt (s : Str) : Option Int :=
  match s with
  | '-' :: rest => (digitsVal rest).map (fun n => -(n : Int))
  | '+' :: rest => (digitsVal rest).map (fun n => (n : Int))
  | _ => (digitsVal s).map (fun n => (n : Int))

/-- The `ValueError`s of `parse_ballots`, as distinguishable kinds carrying
the 1-based raw-input line number (and offending names). -/
inductive BErr : Type
  | rawEmpty : BErr
  | malformed (idx : Nat) : BErr
  | badCount (idx : Nat) : BErr
  | nonPositive (idx : Nat) : BErr
  | dupRanking (idx : Nat) : BErr
  | unknown (idx : Nat) (names : List Str) : BErr
  | noValidBallots : BErr
deriving DecidableEq

/-- Tokenizing the right-hand side of `:` (`main.py` line 33): `>` replaced
by `,`, split on `,`, trimmed, empty tokens dropped. -/
def tokenizeRanking (s : Str) : List Str :=
  ((splitChar ',' (s.map (fun c => if c = '>' then ',' else c))).map strip).filter
    (fun t => !t.isEmpty)

/-- The body of the per-line loop of `parse_ballots` (`main.py` lines
21–40): `ok none` is a skipped blank line, `ok (some b)` an accepted
ballot. -/
def parseLine (idx : Nat) (line : Str) (candidates : List Str) :
    Except BErr (Option (Nat × List Str)) :=
  if (strip line).isEmpty then .ok none
  else if !line.contains ':' then .error (.malformed idx)
  else
    let countText := line.takeWhile (fun c => c ≠ ':')
    let rankingText := (line.dropWhile (fun c => c ≠ ':')).tail
    match parseInt (strip countText) with
    | none => .error (.badCount idx)
    | some count =>
        if count ≤ 0 then .error (.nonPositive idx)
        else
          let ranking := tokenizeRanking rankingText
          if ranking.dedup.length ≠ ranking.length then .error (.dupRanking idx)
          else
            let unknown := ranking.filter (fun c => !candidates.contains c)
            if !unknown.isEmpty then .error (.unknown idx unknown)
            else .ok (some (count.toNat, ranking))

/-- The line loop of `parse_ballots`, accumulating accepted ballots in
order. -/
def parseLines (candidates : List Str) : Nat → List Str → Except BErr (List (Nat × List Str))
  | _, [] => .ok []
  | idx, line :: rest =>
      match parseLine idx line candidates with
      | .error e => .error e
      | .ok none => parseLines candidates (idx + 1) rest
      | .ok (some ballot) =>
          match parseLines candidates (idx + 1) rest with
          | .error e => .error e
          | .ok bs => .ok (ballot :: bs)

/-- The function `parse_ballots` (`main.py` lines 15–44). -/
def parse_ballots (raw : Str) (candidates : List Str) :
    Except BErr (List (Nat × List Str)) :=
  if (strip raw).isEmpty then .error .rawEmpty
  else
    match parseLines candidates 1 (splitlines raw) with
    | .error e => .error e
    | .ok [] => .error .noValidBallots
    | .ok bs => .ok bs

/-! ## Claim about the Borda engine -/

theorem totalOf_foldl_incr_pairs (w maxPoints : Nat) (ps : List (Nat × String)) :
    ∀ t : Tally,
      totalOf (ps.foldl (fun sc p => incr sc p.2 (w * (maxPoints - p.1))) t) =
        totalOf t + (ps.map (fun p => w * (maxPoints - p.1))).sum := by
  induction ps with
  | nil => intro t; simp
  | cons p ps ih =>
      intro t
      simp only [List.foldl_cons, List.map_cons, List.sum_cons, ih, totalOf_incr]
      omega

theorem totalOf_init_zero (candidates : List String) :
    totalOf (candidates.map (fun c => (c, 0))) = 0 := by
  simp only [totalOf, List.map_map]
  exact List.sum_eq_zero (by simp)

theorem list_range_map_sum (f : Nat → Nat) :
    ∀ n : Nat, ((List.range n).map f).sum = ∑ i ∈ Finset.range n, f i := by
  intro n
  induction n with
  | zero => simp
  | succ n ih =>
      rw [List.range_succ, Finset.sum_range_succ]
      simp [ih]

/-- Claim C9: for a single ballot of weight `w` whose ranking is a
full-length permutation of the candidate set, the sum of all Borda scores is
`w * maxPoints * (maxPoints + 1) / 2` with `maxPoints = candidateCount - 1`. -/
theorem borda_single_full_ballot_sum (candidates : List String) (w : Nat)
    (ranking : List String) (hperm : ranking.Perm candidates) :
    totalOf (borda_winner candidates [(w, ranking)]) =
      w * (candidates.length - 1) * ((candidates.length - 1) + 1) / 2 := by
  have hlen : ranking.length = candidates.length := hperm.length_eq
  have key : totalOf (borda_winner candidates [(w, ranking)]) =
      ((ranking.enum).map
        (fun p => w * ((candidates.length - 1) - p.1))).sum := by
    simp only [borda_winner, List.foldl_cons, List.foldl_nil]
    rw [totalOf_foldl_incr_pairs w (candidates.length - 1) ranking.enum]
    rw [totalOf_init_zero]
    simp
  rw [key]
  have key2 : ((ranking.enum).map (fun p => w * ((candidates.length - 1) - p.1))).sum =
      ((List.range ranking.length).map
        (fun i => w * ((candidates.length - 1) - i))).sum := by
    rw [← List.enum_map_fst ranking, List.map_map]
    rfl
  rw [key2, list_range_map_sum, hlen]
  rcases Nat.eq_zero_or_pos candidates.length with hL | hL
  · simp [hL]
  · have hL1 : candidates.length - 1 + 1 = candidates.length := by omega
    rw [hL1]
    have hrefl := Finset.sum_range_reflect (fun i => w * i) candidates.length
    have hterm : ∀ j ∈ Finset.range candidates.length,
        w * (candidates.length - 1 - j) = (fun i => w * i) (candidates.length - 1 - j) := by
      intro j hj; rfl
    rw [Finset.sum_congr rfl hterm, hrefl]
    rw [← Finset.mul_sum, Finset.sum_range_id]
    have hdvd : 2 ∣ candidates.length * (candidates.length - 1) := by
      rcases Nat.even_or_odd candidates.length with he | ho
      · exact Dvd.dvd.mul_right he.two_dvd _
      · have : Even (candidates.length - 1) := by
          rcases ho with ⟨m, hm⟩
          exact ⟨m, by omega⟩
        exact Dvd.dvd.mul_left this.two_dvd _
    conv_rhs =>
      rw [Nat.mul_assoc, Nat.mul_comm (candidates.length - 1) candidates.length,
        Nat.mul_div_assoc w hdvd]

/-- Witness for claim C9: candidates `A,B,C`, one ballot `2: B > C > A`;
score sum `2*2 + 2*1 + 2*0 = 6 = 2 * 2 * 3 / 2`. -/
theorem borda_single_full_ballot_sum_witness :
    (["B","C","A"] : List String).Perm ["A","B","C"] ∧
    totalOf (borda_winner ["A","B","C"] [(2, ["B","C","A"])]) =
      2 * ((["A","B","C"] : List String).length - 1) *
        (((["A","B","C"] : List String).length - 1) + 1) / 2 :=
  ⟨by decide, borda_single_full_ballot_sum ["A","B","C"] 2 ["B","C","A"] (by decide)⟩

/-! ## Claim about the Condorcet engine -/

/-- Candidate `a` strictly beats `b` head-to-head and `b` is a different candidate:
the condition under which the victory loop increments `victories[a]`. -/
def beatsOther (pw : List ((String × String) × Nat)) (a b : String) : Bool :=
  !(b == a) && decide (pget pw b a < pget pw a b)

theorem filter_beq_length_one {α : Type} [BEq α] [LawfulBEq α] (l : List α) (a : α)
    (hnd : l.Nodup) (ha : a ∈ l) : (l.filter (fun x => x == a)).length = 1 := by
  induction l with
  | nil => simp at ha
  | cons x l ih =>
      simp only [List.nodup_cons] at hnd
      rcases List.mem_cons.mp ha with h | h
      · subst h
        have hrest : l.filter (fun y => y == a) = [] := by
          rw [List.filter_eq_nil_iff]
          intro y hy
          simp only [beq_iff_eq]
          intro hya
          exact hnd.1 (hya ▸ hy)
        simp [List.filter_cons, hrest]
      · have hxa : (x == a) = false := by
          simp only [beq_eq_false_iff_ne, ne_eq]
          intro hh
          exact hnd.1 (hh ▸ h)
        simp [List.filter_cons, hxa, ih hnd.2 h]

theorem cget_condorcet_inner (pw : List ((String × String) × Nat)) (a k : String) :
    ∀ (bs : List String) (v : List (String × Nat)),
      cget (bs.foldl
        (fun v2 b => if a = b then v2
          else if pget pw b a < pget pw a b then incr v2 a 1 else v2) v) k =
      cget v k +
        (if k = a then (bs.filter (beatsOther pw a)).length else 0) := by
  intro bs
  induction bs with
  | nil => intro v; simp
  | cons b bs ih =>
      intro v
      simp only [List.foldl_cons]
      by_cases hab : a = b
      · rw [if_pos hab, ih]
        have hpred : beatsOther pw a b = false := by
          simp [beatsOther, show b = a from hab.symm]
        simp [List.filter_cons, hpred]
      · by_cases hcmp : pget pw b a < pget pw a b
        · rw [if_neg hab, if_pos hcmp, ih, cget_incr]
          have hpred : beatsOther pw a b = true := by
            simp only [beatsOther, hcmp, decide_True, Bool.and_true,
              Bool.not_eq_true', beq_eq_false_iff_ne, ne_eq]
            exact fun hh => hab hh.symm
          simp only [List.filter_cons, hpred, if_pos, List.length_cons]
          by_cases hk : k = a
          · simp only [hk, if_pos]
            omega
          · simp [hk]
        · rw [if_neg hab, if_neg hcmp, ih]
          have hpred : beatsOther pw a b = false := by
            simp [beatsOther, hcmp]
          simp [List.filter_cons, hpred]

theorem cget_condorcet_outer (candidates : List String)
    (pw : List ((String × String) × Nat)) :
    ∀ (as : List String) (v : List (String × Nat)) (k : String),
      cget (as.foldl
        (fun v a => candidates.foldl
          (fun v2 b => if a = b then v2
            else if pget pw b a < pget pw a b then incr v2 a 1 else v2) v) v) k =
      cget v k +
        (as.filter (fun a => a == k)).length *
          (candidates.filter (beatsOther pw k)).length := by
  intro as
  induction as with
  | nil => intro v k; simp
  | cons a as ih =>
      intro v k
      simp only [List.foldl_cons]
      rw [ih, cget_condorcet_inner]
      by_cases hk : k = a
      · subst hk
        simp only [List.filter_cons, beq_self_eq_true, if_pos, List.length_cons]
        ring
      · have hak : (a == k) = false := by
          simp only [beq_eq_false_iff_ne, ne_eq]
          exact fun hh => hk hh.symm
        simp [List.filter_cons, hak, hk]

/-- Claim C5: each candidate's victory count is the number of other
candidates it strictly beats head-to-head (ties count for neither); the
Condorcet winner is the first candidate in candidate-set order whose victory
count is `candidateCount - 1`, and `none` when no candidate attains it. -/
theorem condorcet_victories_winner (candidates : List String) (ballots : List Ballot)
    (hnd : candidates.Nodup) :
    (∀ a ∈ candidates,
      cget (victoriesOf candidates (pairwiseOf ballots)) a =
        (candidates.filter (beatsOther (pairwiseOf ballots) a)).length) ∧
    (condorcet_winner candidates ballots).1 =
      candidates.find?
        (fun c => cget (victoriesOf candidates (pairwiseOf ballots)) c ==
          candidates.length - 1) ∧
    ((∀ a ∈ candidates,
        cget (victoriesOf candidates (pairwiseOf ballots)) a ≠ candidates.length - 1) →
      (condorcet_winner candidates ballots).1 = none) := by
  have hvic : ∀ a ∈ candidates,
      cget (victoriesOf candidates (pairwiseOf ballots)) a =
        (candidates.filter (beatsOther (pairwiseOf ballots) a)).length := by
    intro a ha
    unfold victoriesOf
    rw [cget_condorcet_outer]
    rw [filter_beq_length_one candidates a hnd ha]
    simp [cget]
  refine ⟨hvic, rfl, ?_⟩
  intro hno
  unfold condorcet_winner
  simp only []
  rw [List.find?_eq_none]
  intro c hc
  simp only [beq_iff_eq]
  exact fun hh => hno c hc hh

/-- Witness for claim C5: candidates `A,B`, one ballot `1: A > B`; `A` beats
`B` head-to-head, victory count 1 = candidateCount - 1, so `A` wins. -/
theorem condorcet_victories_winner_witness :
    (["A","B"] : List String).Nodup ∧
    ((∀ a ∈ (["A","B"] : List String),
      cget (victoriesOf ["A","B"] (pairwiseOf [(1, ["A","B"])])) a =
        ((["A","B"] : List String).filter
          (beatsOther (pairwiseOf [(1, ["A","B"])]) a)).length) ∧
    (condorcet_winner ["A","B"] [(1, ["A","B"])]).1 =
      (["A","B"] : List String).find?
        (fun c => cget (victoriesOf ["A","B"] (pairwiseOf [(1, ["A","B"])])) c ==
          (["A","B"] : List String).length - 1) ∧
    ((∀ a ∈ (["A","B"] : List String),
        cget (victoriesOf ["A","B"] (pairwiseOf [(1, ["A","B"])])) a ≠
          (["A","B"] : List String).length - 1) →
      (condorcet_winner ["A","B"] [(1, ["A","B"])]).1 = none)) :=
  ⟨by decide, condorcet_victories_winner ["A","B"] [(1, ["A","B"])] (by decide)⟩

/-! ## Claims about parsing -/

theorem splitChar_ne_nil (sep : Char) (s : Str) : splitChar sep s ≠ [] := by
  match s with
  | [] => simp [splitChar]
  | c :: rest =>
      simp only [splitChar]
      split <;> simp

theorem headI_mem_of_ne_nil {α : Type} [Inhabited α] (l : List α) (h : l ≠ []) :
    l.headI ∈ l := by
  match l with
  | [] => exact absurd rfl h
  | a :: rest => simp [List.headI]

theorem splitChar_no_sep (sep : Char) (s : Str) : ∀ t ∈ splitChar sep s, sep ∉ t := by
  induction s with
  | nil =>
      intro t ht
      simp only [splitChar, List.mem_singleton] at ht
      simp [ht]
  | cons c rest ih =>
      intro t ht
      simp only [splitChar] at ht
      by_cases hc : c = sep
      · rw [if_pos hc] at ht
        rcases List.mem_cons.mp ht with h | h
        · simp [h]
        · exact ih t h
      · rw [if_neg hc] at ht
        rcases List.mem_cons.mp ht with h | h
        · subst h
          intro hmem
          rcases List.mem_cons.mp hmem with h2 | h2
          · exact hc h2.symm
          · exact ih _ (headI_mem_of_ne_nil _ (splitChar_ne_nil sep rest)) h2
        · exact ih t (List.mem_of_mem_tail h)

theorem splitChar_of_no_sep (sep : Char) (s : Str) (h : sep ∉ s) :
    splitChar sep s = [s] := by
  induction s with
  | nil => simp [splitChar]
  | cons c rest ih =>
      have hc : ¬ c = sep := fun hh => h (by simp [hh])
      have hr : sep ∉ rest := fun hh => h (List.mem_cons_of_mem _ hh)
      simp [splitChar, hc, ih hr]

theorem splitChar_append (sep : Char) (a b : Str) (h : sep ∉ a) :
    splitChar sep (a ++ sep :: b) = a :: splitChar sep b := by
  induction a with
  | nil => simp [splitChar]
  | cons c a2 ih =>
      have hc : ¬ c = sep := fun hh => h (by simp [hh])
      have ha2 : sep ∉ a2 := fun hh => h (List.mem_cons_of_mem _ hh)
      simp [splitChar, hc, ih ha2, splitChar_ne_nil]

theorem splitChar_joinSep (sep : Char) (cs : List Str) (hne : cs ≠ [])
    (h : ∀ t ∈ cs, sep ∉ t) : splitChar sep (joinSep sep cs) = cs := by
  induction cs with
  | nil => exact absurd rfl hne
  | cons t rest ih =>
      match rest with
      | [] => simpa [joinSep] using splitChar_of_no_sep sep t (h t (by simp))
      | t2 :: rest2 =>
          have hj : joinSep sep (t :: t2 :: rest2) = t ++ sep :: joinSep sep (t2 :: rest2) :=
            rfl
          rw [hj, splitChar_append sep t _ (h t (by simp))]
          rw [ih (by simp) (fun u hu => h u (List.mem_cons_of_mem _ hu))]

theorem dropWhile_dropWhile {α : Type} (p : α → Bool) (l : List α) :
    (l.dropWhile p).dropWhile p = l.dropWhile p := by
  induction l with
  | nil => simp
  | cons a l ih =>
      by_cases h : p a = true
      · simp [List.dropWhile_cons, h, ih]
      · simp [List.dropWhile_cons, h]

theorem dropWhile_eq_self_left {α : Type} (p : α → Bool) (a b : List α)
    (h : (a ++ b).dropWhile p = a ++ b) : a.dropWhile p = a := by
  match a with
  | [] => simp
  | x :: a2 =>
      have hx : p x = false := by
        by_contra hxc
        have hx2 : p x = true := by simpa using hxc
        rw [List.cons_append, List.dropWhile_cons, if_pos hx2] at h
        have hlen := (List.dropWhile_suffix (l := a2 ++ b) p).length_le
        rw [h] at hlen
        simp only [List.length_cons] at hlen
        omega
      rw [List.dropWhile_cons, if_neg (by simp [hx])]

theorem strip_fix_of_dropWhile_fix (s : Str)
    (hfix : s.dropWhile Char.isWhitespace = s) :
    (((s.reverse.dropWhile Char.isWhitespace).reverse).dropWhile Char.isWhitespace) =
      (s.reverse.dropWhile Char.isWhitespace).reverse := by
  have hzsuf : (s.reverse.dropWhile Char.isWhitespace) <:+ s.reverse :=
    List.dropWhile_suffix _
  obtain ⟨pre, hpre⟩ := hzsuf
  have hy2 : s = (s.reverse.dropWhile Char.isWhitespace).reverse ++ pre.reverse := by
    have h3 := congrArg List.reverse hpre
    simp only [List.reverse_append, List.reverse_reverse] at h3
    exact h3.symm
  apply dropWhile_eq_self_left Char.isWhitespace _ pre.reverse
  rw [← hy2]
  exact hfix

theorem strip_idem (s : Str) : strip (strip s) = strip s := by
  have hzfix : (strip s).dropWhile Char.isWhitespace = strip s :=
    strip_fix_of_dropWhile_fix (s.dropWhile Char.isWhitespace)
      (dropWhile_dropWhile _ s)
  have key : strip (strip s) =
      ((((strip s).dropWhile Char.isWhitespace).reverse).dropWhile
        Char.isWhitespace).reverse := rfl
  rw [key, hzfix]
  have key2 : (strip s).reverse =
      ((s.dropWhile Char.isWhitespace).reverse).dropWhile Char.isWhitespace := by
    simp [strip]
  rw [key2, dropWhile_dropWhile]
  rfl

theorem mem_of_mem_strip (s : Str) (c : Char) (h : c ∈ strip s) : c ∈ s := by
  unfold strip at h
  rw [List.mem_reverse] at h
  have h1 := ((List.dropWhile_suffix (l := (s.dropWhile Char.isWhitespace).reverse)
    Char.isWhitespace).sublist.subset) h
  rw [List.mem_reverse] at h1
  exact ((List.dropWhile_suffix (l := s) Char.isWhitespace).sublist.subset) h1

/-- Claim C8: a successful `parse_candidates` returns exactly the trimmed
non-empty comma-separated tokens in input order, with no duplicates, and
re-running it on the comma-joined output returns the same list. -/
theorem parse_candidates_roundtrip (raw : Str) (cs : List Str)
    (h : parse_candidates raw = .ok cs) :
    cs = ((splitChar ',' raw).map strip).filter (fun t => !t.isEmpty) ∧
    cs.Nodup ∧
    parse_candidates (joinSep ',' cs) = .ok cs := by
  unfold parse_candidates at h
  set tokens := ((splitChar ',' raw).map strip).filter (fun t => !t.isEmpty)
    with htk
  by_cases hdup : tokens.dedup.length ≠ tokens.length
  · rw [if_pos hdup] at h
    cases h
  · rw [if_neg hdup] at h
    by_cases hemp : tokens.isEmpty
    · rw [if_pos hemp] at h
      cases h
    · rw [if_neg hemp] at h
      have hcs : tokens = cs := by
        injection h
      subst hcs
      have hnodup : tokens.Nodup := by
        refine List.dedup_eq_self.mp ?_
        refine (List.dedup_sublist tokens).eq_of_length ?_
        omega
      refine ⟨rfl, hnodup, ?_⟩
      have htne : tokens ≠ [] := by
        intro hnil
        rw [hnil] at hemp
        exact hemp rfl
      have htok : ∀ t ∈ tokens, t ≠ [] ∧ strip t = t ∧ ',' ∉ t := by
        intro t ht
        rw [htk] at ht
        rcases List.mem_filter.mp ht with ⟨hmap, hne2⟩
        rcases List.mem_map.mp hmap with ⟨t0, ht0, hst⟩
        refine ⟨?_, ?_, ?_⟩
        · intro hnil
          rw [hnil] at hne2
          simp at hne2
        · rw [← hst]
          exact strip_idem t0
        · intro hmem
          exact splitChar_no_sep ',' raw t0 ht0 (mem_of_mem_strip t0 ','
            (hst ▸ hmem))
      have hsplit : splitChar ',' (joinSep ',' tokens) = tokens :=
        splitChar_joinSep ',' tokens htne (fun t ht => (htok t ht).2.2)
      have hmapstrip : tokens.map strip = tokens := by
        have := List.map_congr_left (l := tokens) (f := strip) (g := id)
          (fun t ht => (htok t ht).2.1)
        simpa using this
      have hfilter : tokens.filter (fun t => !t.isEmpty) = tokens := by
        rw [List.filter_eq_self]
        intro t ht
        simp only [Bool.not_eq_true']
        rcases htok t ht with ⟨hne2, _, _⟩
        cases t with
        | nil => exact absurd rfl hne2
        | cons c rest => rfl
      unfold parse_candidates
      rw [hsplit, hmapstrip, hfilter]
      rw [if_neg (by omega)]
      rw [if_neg hemp]

/-- Witness for claim C8 on the concrete input `" A , B "`. -/
theorem parse_candidates_roundtrip_witness :
    parse_candidates " A , B ".toList = .ok ["A".toList, "B".toList] ∧
    (["A".toList, "B".toList] =
        ((splitChar ',' " A , B ".toList).map strip).filter (fun t => !t.isEmpty) ∧
      (["A".toList, "B".toList] : List Str).Nodup ∧
      parse_candidates (joinSep ',' ["A".toList, "B".toList]) =
        .ok ["A".toList, "B".toList]) :=
  ⟨rfl, parse_candidates_roundtrip " A , B ".toList ["A".toList, "B".toList] rfl⟩

/-- Claim C3, counterexample: with candidates `["A"]`, the ballot text `"1:"`
(whose right-hand side yields zero tokens) parses *successfully* to the
single ballot `(1, [])`, whose ranking is empty — `parse_ballots` does not
reject empty rankings. -/
theorem parse_ballots_empty_ranking_cex :
    parse_ballots "1:".toList ["A".toList] = .ok [(1, [])] ∧
    ((1 : Nat), ([] : List Str)).2 = [] :=
  ⟨rfl, rfl⟩

/-- Claim C3, amended: a non-blank line containing `:` whose count parses as
a positive integer and whose right-hand side tokenizes to zero tokens is
*accepted* by the per-line parser, producing a ballot with an empty ranking
(there is no empty-ranking rejection). -/
theorem parseLine_empty_ranking_ok (idx : Nat) (line : Str) (candidates : List Str)
    (hblank : (strip line).isEmpty = false)
    (hcolon : line.contains ':' = true)
    (count : Int)
    (hcount : parseInt (strip (line.takeWhile (fun c => c ≠ ':'))) = some count)
    (hpos : 0 < count)
    (htok : tokenizeRanking ((line.dropWhile (fun c => c ≠ ':')).tail) = []) :
    parseLine idx line candidates = .ok (some (count.toNat, [])) := by
  unfold parseLine
  have hmem : ':' ∈ line := by simpa using hcolon
  rw [if_neg (by simp [hblank])]
  rw [if_neg (by simp [hmem])]
  dsimp only
  rw [hcount, htok]
  simp [show ¬ count ≤ 0 from by omega]

/-- Witness for the amended claim C3 on the line `"1:"`. -/
theorem parseLine_empty_ranking_ok_witness :
    (strip "1:".toList).isEmpty = false ∧
    "1:".toList.contains ':' = true ∧
    parseInt (strip ("1:".toList.takeWhile (fun c => c ≠ ':'))) = some 1 ∧
    (0 : Int) < 1 ∧
    tokenizeRanking (("1:".toList.dropWhile (fun c => c ≠ ':')).tail) = [] ∧
    parseLine 1 "1:".toList ["A".toList] = .ok (some ((1 : Int).toNat, [])) :=
  ⟨by decide, by decide, by decide, by decide, by decide,
    parseLine_empty_ranking_ok 1 "1:".toList ["A".toList] (by decide) (by decide) 1
      (by decide) (by decide) (by decide)⟩

end VoteMaster
